import Mathlib

/-!
Verification of the feature-construction and recursive-forecast core of the
hourly electricity-demand pipeline (`src/features.py`, `src/model.py`,
`scripts/run_model.py`).

Timestamps are modelled as minutes since an epoch (`Nat`, or `Int` where
subtraction occurs), so one hour is 60 ticks and sub-hour instants exist.
A missing value (pandas `NaN`) is modelled as `none : Option _`.
-/

namespace DemandPipeline

/-! ### Time grid normalisation — `ensure_hourly_index` (src/features.py:53-86)

`ensure_hourly_index` sorts by timestamp, builds the closed hourly range
`[min.floor("h"), max.ceil("h")]`, reindexes the observations onto it by
exact-timestamp match, and applies the fill policy to the value column.
Values are kept polymorphic in `α`: forward/backward fill never computes on
the values (the source's fourth policy, `interpolate`, does linear
arithmetic and is not needed by any claim here, so it is not modelled). -/

/-- `Timestamp.floor("h")` in minutes: round down to a multiple of 60. -/
def floorHour (t : Nat) : Nat := t / 60 * 60

/-- `Timestamp.ceil("h")` in minutes: round up to a multiple of 60. -/
def ceilHour (t : Nat) : Nat := (t + 59) / 60 * 60

/-- `df.index.min()`: least timestamp of the raw series (0 for an empty one,
which the source never queries because empty input makes the pipeline raise). -/
def minTs {α : Type} (raw : List (Nat × α)) : Nat :=
  match raw with
  | [] => 0
  | p :: rest => rest.foldl (fun a q => min a q.1) p.1

/-- `df.index.max()`: greatest timestamp of the raw series. -/
def maxTs {α : Type} (raw : List (Nat × α)) : Nat :=
  match raw with
  | [] => 0
  | p :: rest => rest.foldl (fun a q => max a q.1) p.1

/-- Number of rows of `pd.date_range(start, end, freq="h")` over the closed
range: `(end - start)/1h + 1`. -/
def gridLen {α : Type} (raw : List (Nat × α)) : Nat :=
  (ceilHour (maxTs raw) - floorHour (minTs raw)) / 60 + 1

/-- The timestamps of the full hourly index `full_idx`. -/
def gridTimes {α : Type} (raw : List (Nat × α)) : List Nat :=
  (List.range (gridLen raw)).map (fun i => floorHour (minTs raw) + 60 * i)

/-- `df.reindex(full_idx)` at one grid instant: the value of the observation
whose timestamp matches exactly, `NaN` (= `none`) otherwise. -/
def lookupVal {α : Type} (raw : List (Nat × α)) (t : Nat) : Option α :=
  (raw.find? (fun p => p.1 = t)).map Prod.snd

/-- The value column after reindexing onto the full hourly grid. -/
def gridVals {α : Type} (raw : List (Nat × α)) : List (Option α) :=
  (gridTimes raw).map (lookupVal raw)

/-- Forward fill with the last seen value carried in the accumulator. -/
def ffillAux {α : Type} (acc : Option α) : List (Option α) → List (Option α)
  | [] => []
  | none :: rest => acc :: ffillAux acc rest
  | some x :: rest => some x :: ffillAux (some x) rest

/-- `Series.ffill()`: each missing entry becomes the nearest preceding
non-missing value; leading gaps stay missing. -/
def ffillList {α : Type} (l : List (Option α)) : List (Option α) :=
  ffillAux none l

/-- `Series.bfill()` is forward fill run backwards. -/
def bfillList {α : Type} (l : List (Option α)) : List (Option α) :=
  (ffillAux none l.reverse).reverse

/-- The fill policies of `ensure_hourly_index` used by the claims
(`interpolate`, which is arithmetic on the values, is out of scope here). -/
inductive FillMethod | ffill | bfill | nofill

/-- Apply the fill policy to the reindexed value column. -/
def applyFill {α : Type} : FillMethod → List (Option α) → List (Option α)
  | FillMethod.ffill, l => ffillList l
  | FillMethod.bfill, l => bfillList l
  | FillMethod.nofill, l => l

/-- `ensure_hourly_index`: the continuous hourly grid with the fill policy
applied to the value column. -/
def ensure_hourly_index {α : Type} (raw : List (Nat × α)) (m : FillMethod) :
    List (Nat × Option α) :=
  (gridTimes raw).zip (applyFill m (gridVals raw))

/-! ### Feature builder — `build_features_pipeline` (src/features.py:143-200)

The pipeline normalises the grid, chooses the set of usable lags, adds lag,
rolling and calendar columns (column additions never change the row count),
then deterministically drops the first `max(valid_lags)` rows. Here we embed
the row-level structure: the valid-lag computation and the resulting rows;
the rolling-window arithmetic is embedded separately below. -/

/-- `max(valid_lags)` as the source computes it (`max` of a nonempty list;
the source only calls it on nonempty lists). -/
def maxList (l : List Nat) : Nat := l.foldl max 0

/-- The trimming loop of `build_features_pipeline` (src/features.py:173-180)
with an explicit fuel argument (each iteration pops one element, so
`l.length` fuel always suffices): while lags remain and
`(n_rows - max_lag) < min_train_rows` (Python integer arithmetic, hence the
cast to `Int`), pop the last element of the ascending-sorted list (which is
its maximum). -/
def trimLoopF (nRows minTrain : Nat) : Nat → List Nat → List Nat
  | 0, l => l
  | _, [] => []
  | fuel + 1, a :: rest =>
    if (minTrain : Int) ≤ (nRows : Int) - (maxList (a :: rest) : Int) then
      a :: rest
    else
      trimLoopF nRows minTrain fuel (a :: rest).dropLast

/-- The trimming loop run to completion. -/
def trimLoop (nRows minTrain : Nat) (l : List Nat) : List Nat :=
  trimLoopF nRows minTrain l.length l

/-- `sorted(set(lags))`: deduplicate, then sort ascending. -/
def dedupSortAsc (l : List Nat) : List Nat :=
  l.dedup.insertionSort (· ≤ ·)

/-- The complete valid-lag computation of `build_features_pipeline`
(src/features.py:169-186): initial filter `lag < n_rows`, the trimming loop,
and the fallback to `[1, 24]` filtered to `< n_rows` when nothing is left. -/
def validLags (requested : List Nat) (nRows minTrain : Nat) : List Nat :=
  if trimLoop nRows minTrain ((dedupSortAsc requested).filter (fun lag => lag < nRows)) = []
  then [1, 24].filter (fun lag => lag < nRows)
  else trimLoop nRows minTrain ((dedupSortAsc requested).filter (fun lag => lag < nRows))

/-- The lag-trimming loop exactly as the spec words it, with no initial
`lag < n_rows` filter: drop the largest remaining lag while
`(n_rows - max_remaining_lag) < min_train_rows`, then the same fallback.
(Second definition for the refinement comparison with `validLags`.) -/
def specTrimLags (requested : List Nat) (nRows minTrain : Nat) : List Nat :=
  if trimLoop nRows minTrain (dedupSortAsc requested) = []
  then [1, 24].filter (fun lag => lag < nRows)
  else trimLoop nRows minTrain (dedupSortAsc requested)

/-- `build_features_pipeline` at row level: the hourly grid, the `n_rows <= 0`
check (`ValueError`), the valid-lag computation, and the deterministic drop of
the first `max_lag` rows when lags survive. Returns the surviving lag set
(one lag column `target_lag_k` is added per element) together with the rows of
the returned table. -/
def build_features_pipeline {α : Type} (raw : List (Nat × α))
    (lags : List Nat) (minTrain : Nat) :
    Except String (List Nat × List (Nat × Option α)) :=
  if (ensure_hourly_index raw FillMethod.ffill).length = 0 then
    Except.error "No rows after ensuring hourly index"
  else if validLags lags (ensure_hourly_index raw FillMethod.ffill).length minTrain
      = [] then
    Except.ok ([], ensure_hourly_index raw FillMethod.ffill)
  else if maxList (validLags lags (ensure_hourly_index raw FillMethod.ffill).length
      minTrain) < (ensure_hourly_index raw FillMethod.ffill).length then
    Except.ok (validLags lags (ensure_hourly_index raw FillMethod.ffill).length minTrain,
      (ensure_hourly_index raw FillMethod.ffill).drop
        (maxList (validLags lags (ensure_hourly_index raw FillMethod.ffill).length
          minTrain)))
  else
    Except.ok (validLags lags (ensure_hourly_index raw FillMethod.ffill).length minTrain,
      ensure_hourly_index raw FillMethod.ffill)

/-! ### Rolling features — `create_rolling_features` (src/features.py:100-110)

`rolling(window=w, min_periods=1)` at row `i` looks at the trailing
`min(w, i+1)` rows. `.std()` is the sample standard deviation (`ddof=1`);
its divisor is `count - 1`, and float division `0/0` yields `NaN`, modelled
by an `Option`-valued division. `.fillna(0)` then maps `NaN` to `0`. -/

/-- The trailing window of `rolling(window=w, min_periods=1)` at row `i`. -/
def windowAt (w : Nat) (xs : List ℝ) (i : Nat) : List ℝ :=
  (xs.take (i + 1)).drop (i + 1 - w)

/-- Mean of a window (the source never takes it over an empty window). -/
noncomputable def listMean (xs : List ℝ) : ℝ := xs.sum / xs.length

/-- Sample standard deviation with `ddof=1`, `NaN` (= `none`) when the
divisor `count - 1` is zero, as float `0/0` is `NaN`. -/
noncomputable def sampleStd (xs : List ℝ) : Option ℝ :=
  if xs.length - 1 = 0 then none
  else some (Real.sqrt (((xs.map (fun x => (x - listMean xs) ^ 2)).sum) /
    ((xs.length : ℝ) - 1)))

/-- The column `target_roll_mean_w`. -/
noncomputable def rollMean (w : Nat) (xs : List ℝ) : List ℝ :=
  (List.range xs.length).map (fun i => listMean (windowAt w xs i))

/-- The column `target_roll_std_w`, after `.fillna(0)`. -/
noncomputable def rollStdFilled (w : Nat) (xs : List ℝ) : List ℝ :=
  (List.range xs.length).map (fun i => (sampleStd (windowAt w xs i)).getD 0)

/-! ### Train/validation split — `train_val_split_time` (src/features.py:131-141)

Timestamps are `Int` minutes here because the cutoff subtracts a duration.
`val_hours` is the non-negative hour count of `pd.Timedelta(hours=val_hours)`. -/

/-- `df.sort_values(datetime_col)`: stable ascending sort by timestamp. -/
def sortByTs {α : Type} (rows : List (Int × α)) : List (Int × α) :=
  rows.insertionSort (fun a b => a.1 ≤ b.1)

/-- `df[datetime_col].max()` over `Int` minutes (0 for the empty table,
which pandas would make `NaT`; the claims quantify over nonempty tables). -/
def maxTsInt {α : Type} (rows : List (Int × α)) : Int :=
  match rows with
  | [] => 0
  | p :: rest => rest.foldl (fun a q => max a q.1) p.1

/-- `train_val_split_time`: sort by timestamp, `cutoff = max(ts) - val_hours`,
train gets `ts <= cutoff`, validation gets `ts > cutoff`. -/
def train_val_split_time {α : Type} (rows : List (Int × α)) (valHours : Nat) :
    List (Int × α) × List (Int × α) :=
  let sorted := sortByTs rows
  let cutoff := maxTsInt rows - 60 * (valHours : Int)
  (sorted.filter (fun p => p.1 ≤ cutoff), sorted.filter (fun p => ¬ p.1 ≤ cutoff))

/-! ### Forecast state machine — `make_recursive_forecast` (src/model.py:57-123)

The working row `cur` is modelled by `FState`: the lag columns as a map from
lag offset (the integer parsed from `target_lag_k`) to an optional value
(`none` = `NaN`), plus the calendar columns that `add_time_features` always
creates, so the source's `if "hour" in cur.index` guards are always taken on
the pipeline's states. `predict` stands for
`float(model.predict(single_row)[0])` including the `fillna(0.0)` assembly,
and may fail like the Python call; `Except.error` is an escaping exception. -/

/-- Python exception values that can escape `model.predict`. The
`forecastError` wrapper is the `ForecastError` type named by the spec's
error taxonomy; modelled from the spec: the source defines no such class,
the constructor exists only so the claim about it can be stated. -/
inductive EstimatorError where
  | notFitted : EstimatorError
  | shapeMismatch : EstimatorError
  | forecastError : EstimatorError → EstimatorError
deriving DecidableEq

/-- Whether an exception value is the spec's `ForecastError` wrapper. -/
def EstimatorError.isForecastWrap : EstimatorError → Bool
  | EstimatorError.forecastError _ => true
  | _ => false

/-- The mutable working copy `cur` of the anchor feature row, restricted to
the columns the transition reads or writes. -/
structure FState where
  lags : Int → Option ℝ
  hour : Int
  hourSin : ℝ
  hourCos : ℝ
  dayofweek : ℝ
  month : ℝ
  dayofyear : ℝ
  isWeekend : ℝ

/-- The value written into lag column `k` by the update loop
(src/model.py:95-107): the loop builds `new_lags` from the snapshot
`cur_lags` (never from `new_lags` itself, so its descending order is
irrelevant): `new_lags[1] = y_pred` and, for `k ≠ 1`,
`new_lags[k] = cur_lags.get(k-1, nan)` — `NaN` when `k-1` is not itself a
configured offset. -/
def newLagVal (lagSet : List Int) (cur : Int → Option ℝ) (y : ℝ) (k : Int) :
    Option ℝ :=
  if k = 1 then some y
  else if k - 1 ∈ lagSet then cur (k - 1) else none

/-- One transition of the forecast state machine: write the new lag values
back into the lag columns, advance `hour ← (hour + 1) mod 24`, and recompute
`hour_sin`, `hour_cos` from the new hour (src/model.py:95-116). All other
columns are untouched. -/
noncomputable def transition (lagSet : List Int) (st : FState) (y : ℝ) : FState :=
  let h := (st.hour + 1) % 24
  { st with
    lags := fun k => if k ∈ lagSet then newLagVal lagSet st.lags y k else st.lags k
    hour := h
    hourSin := Real.sin (2 * Real.pi * (h : ℝ) / 24)
    hourCos := Real.cos (2 * Real.pi * (h : ℝ) / 24) }

/-- The step loop `for step in range(1, horizon + 1)` (src/model.py:89-116),
with `n` steps left and `step` the next step number: predict, record
`(step, y_pred)`, transition, recurse. An exception from `predict`
propagates and abandons the predictions accumulated so far. -/
noncomputable def runForecast (predict : FState → Except EstimatorError ℝ)
    (lagSet : List Int) : Nat → Nat → FState →
    Except EstimatorError (List (Nat × ℝ))
  | 0, _, _ => Except.ok []
  | n + 1, step, st =>
    match predict st with
    | Except.error e => Except.error e
    | Except.ok y =>
      match runForecast predict lagSet n (step + 1) (transition lagSet st y) with
      | Except.error e => Except.error e
      | Except.ok rest => Except.ok ((step, y) :: rest)

/-- `make_recursive_forecast`: run `horizon` steps starting at step 1 from the
anchor snapshot; the returned rows are the `(step, prediction)` pairs (the
`target` column of the output frame is constantly `NaN` and carries no
information). -/
noncomputable def make_recursive_forecast (predict : FState → Except EstimatorError ℝ)
    (lagSet : List Int) (horizon : Nat) (st : FState) :
    Except EstimatorError (List (Nat × ℝ)) :=
  runForecast predict lagSet horizon 1 st

/-- The datetime labelling of `scripts/run_model.py:56-61`:
`last_observed + Timedelta(hours=i)` for `i = 1 .. len(forecast_df)`,
in minutes. -/
def labelDatetimes (anchor : Nat) (n : Nat) : List Nat :=
  (List.range n).map (fun i => anchor + 60 * (i + 1))

/-! ### Helper lemmas -/

lemma foldlMin_le {α : Type} :
    ∀ (l : List (Nat × α)) (a : Nat), l.foldl (fun b q => min b q.1) a ≤ a := by
  intro l
  induction l with
  | nil => intro a; simp
  | cons p rest ih =>
    intro a
    calc (p :: rest).foldl (fun b q => min b q.1) a
        = rest.foldl (fun b q => min b q.1) (min a p.1) := rfl
      _ ≤ min a p.1 := ih _
      _ ≤ a := min_le_left _ _

lemma le_foldlMax {α : Type} :
    ∀ (l : List (Nat × α)) (a : Nat), a ≤ l.foldl (fun b q => max b q.1) a := by
  intro l
  induction l with
  | nil => intro a; simp
  | cons p rest ih =>
    intro a
    calc a ≤ max a p.1 := le_max_left _ _
      _ ≤ rest.foldl (fun b q => max b q.1) (max a p.1) := ih _
      _ = (p :: rest).foldl (fun b q => max b q.1) a := rfl

lemma minTs_le_maxTs {α : Type} (raw : List (Nat × α)) (h : raw ≠ []) :
    minTs raw ≤ maxTs raw := by
  match raw with
  | [] => exact absurd rfl h
  | p :: rest =>
    calc minTs (p :: rest) ≤ p.1 := foldlMin_le rest p.1
      _ ≤ maxTs (p :: rest) := le_foldlMax rest p.1

lemma floorHour_le (t : Nat) : floorHour t ≤ t := Nat.div_mul_le_self t 60

lemma le_ceilHour (t : Nat) : t ≤ ceilHour t := by
  unfold ceilHour
  omega

lemma dvd_floorHour (t : Nat) : 60 ∣ floorHour t := dvd_mul_left 60 (t / 60)

lemma dvd_ceilHour (t : Nat) : 60 ∣ ceilHour t := dvd_mul_left 60 ((t + 59) / 60)

lemma chain_arith (a d n : Nat) :
    List.Chain' (fun x y => y = x + d) ((List.range n).map fun i => a + d * i) := by
  rw [List.chain'_iff_get]
  intro i h
  simp only [List.length_map, List.length_range] at h
  simp only [List.get_eq_getElem, List.getElem_map, List.getElem_range]
  ring

lemma getLast_range_map {β : Type} (f : Nat → β) (n : Nat) (h : n ≠ 0) :
    ((List.range n).map f).getLast? = some (f (n - 1)) := by
  have h1 : n - 1 < n := by omega
  rw [List.getLast?_eq_getElem?]
  simp [List.getElem?_map, List.getElem?_range, h1]

/-- C2: for every nonempty input series, the normalised hourly grid has
consecutive timestamps spaced exactly one hour (60 ticks) apart, starts at
`floor_to_hour(min ts)`, ends at `ceil_to_hour(max ts)`, and has length
`(end - start)/1h + 1`. -/
theorem hourly_grid_structure {α : Type} (raw : List (Nat × α)) (h : raw ≠ []) :
    List.Chain' (fun x y => y = x + 60) (gridTimes raw)
    ∧ (gridTimes raw).head? = some (floorHour (minTs raw))
    ∧ (gridTimes raw).getLast? = some (ceilHour (maxTs raw))
    ∧ (gridTimes raw).length
        = (ceilHour (maxTs raw) - floorHour (minTs raw)) / 60 + 1 := by
  have hse : floorHour (minTs raw) ≤ ceilHour (maxTs raw) :=
    le_trans (floorHour_le _) (le_trans (minTs_le_maxTs raw h) (le_ceilHour _))
  have hdvd : 60 ∣ ceilHour (maxTs raw) - floorHour (minTs raw) :=
    Nat.dvd_sub' (dvd_ceilHour _) (dvd_floorHour _)
  refine ⟨chain_arith _ _ _, ?_, ?_, ?_⟩
  · have : gridLen raw = (gridLen raw - 1) + 1 := by
      unfold gridLen; omega
    rw [gridTimes, this, List.range_succ_eq_map]
    simp
  · rw [gridTimes, getLast_range_map _ _ (by unfold gridLen; omega)]
    have h60 : 60 * ((ceilHour (maxTs raw) - floorHour (minTs raw)) / 60)
        = ceilHour (maxTs raw) - floorHour (minTs raw) :=
      Nat.mul_div_cancel' hdvd
    unfold gridLen
    simp only [Nat.add_sub_cancel]
    rw [h60, Nat.add_sub_cancel' hse]
  · simp [gridTimes, gridLen]

/-- C2 witness: the grid of the two-point series `{(t=30, 1), (t=150, 2)}`
runs from hour 0 to hour 180 in four one-hour steps. -/
theorem hourly_grid_structure_witness :
    List.Chain' (fun x y => y = x + 60) (gridTimes [((30 : Nat), (1 : Nat)), (150, 2)])
    ∧ (gridTimes [((30 : Nat), (1 : Nat)), (150, 2)]).head?
        = some (floorHour (minTs [((30 : Nat), (1 : Nat)), (150, 2)]))
    ∧ (gridTimes [((30 : Nat), (1 : Nat)), (150, 2)]).getLast?
        = some (ceilHour (maxTs [((30 : Nat), (1 : Nat)), (150, 2)]))
    ∧ (gridTimes [((30 : Nat), (1 : Nat)), (150, 2)]).length
        = (ceilHour (maxTs [((30 : Nat), (1 : Nat)), (150, 2)])
            - floorHour (minTs [((30 : Nat), (1 : Nat)), (150, 2)])) / 60 + 1 :=
  hourly_grid_structure [((30 : Nat), (1 : Nat)), (150, 2)] (by decide)

/-! ### Forward-fill lemmas for C8 -/

/-- The last non-missing entry of `l`, or `acc` when there is none. -/
def lastSomeOr {α : Type} (acc : Option α) (l : List (Option α)) : Option α :=
  l.foldl (fun a v => match v with | some x => some x | none => a) acc

/-- The greatest index `j < i` at which `l` carries a non-missing value. -/
def prevSome {α : Type} (l : List (Option α)) : Nat → Option Nat
  | 0 => none
  | i + 1 => if (l.getD i none).isSome then some i else prevSome l i

lemma lastSomeOr_nil {α : Type} (acc : Option α) : lastSomeOr acc [] = acc := rfl

lemma lastSomeOr_append {α : Type} (acc : Option α) (l₁ l₂ : List (Option α)) :
    lastSomeOr acc (l₁ ++ l₂) = lastSomeOr (lastSomeOr acc l₁) l₂ :=
  List.foldl_append _ _ _ _

lemma lastSomeOr_all_none {α : Type} (acc : Option α) :
    ∀ (l : List (Option α)), (∀ v ∈ l, v = none) → lastSomeOr acc l = acc := by
  intro l
  induction l with
  | nil => intro _; rfl
  | cons v rest ih =>
    intro hall
    have hv : v = none := hall v (List.mem_cons_self _ _)
    subst hv
    have : lastSomeOr acc (none :: rest) = lastSomeOr acc rest := rfl
    rw [this]
    exact ih (fun w hw => hall w (List.mem_cons_of_mem _ hw))

lemma ffillAux_getD {α : Type} :
    ∀ (l : List (Option α)) (acc : Option α) (i : Nat), i < l.length →
      (ffillAux acc l).getD i none = lastSomeOr acc (l.take (i + 1)) := by
  intro l
  induction l with
  | nil => intro acc i h; simp at h
  | cons v rest ih =>
    intro acc i h
    match v with
    | none =>
      match i with
      | 0 => rfl
      | j + 1 =>
        have hj : j < rest.length := by simpa using h
        have h1 : (ffillAux acc (none :: rest)).getD (j + 1) none
            = (ffillAux acc rest).getD j none := rfl
        have h2 : lastSomeOr acc ((none :: rest).take (j + 2))
            = lastSomeOr acc (rest.take (j + 1)) := rfl
        rw [h1, h2, ih acc j hj]
    | some x =>
      match i with
      | 0 => rfl
      | j + 1 =>
        have hj : j < rest.length := by simpa using h
        have h1 : (ffillAux acc (some x :: rest)).getD (j + 1) none
            = (ffillAux (some x) rest).getD j none := rfl
        have h2 : lastSomeOr acc ((some x :: rest).take (j + 2))
            = lastSomeOr (some x) (rest.take (j + 1)) := rfl
        rw [h1, h2, ih (some x) j hj]

lemma prevSome_spec {α : Type} (l : List (Option α)) :
    ∀ (i j : Nat), prevSome l i = some j →
      j < i ∧ (l.getD j none).isSome
        ∧ ∀ k, j < k → k < i → l.getD k none = none := by
  intro i
  induction i with
  | zero => intro j h; simp [prevSome] at h
  | succ m ih =>
    intro j h
    rw [prevSome] at h
    by_cases hm : (l.getD m none).isSome
    · rw [if_pos hm] at h
      obtain rfl : m = j := by injection h
      exact ⟨Nat.lt_succ_self _, hm, fun k h1 h2 => absurd h2 (by omega)⟩
    · rw [if_neg hm] at h
      obtain ⟨h1, h2, h3⟩ := ih j h
      refine ⟨by omega, h2, fun k hk1 hk2 => ?_⟩
      by_cases hkm : k = m
      · subst hkm
        cases hgd : l.getD k none with
        | none => rfl
        | some x => exact absurd (by rw [hgd]; rfl) hm
      · exact h3 k hk1 (by omega)

lemma getD_eq_getElem {α : Type} (l : List (Option α)) (k : Nat) (hk : k < l.length) :
    l.getD k none = l[k] := by
  rw [List.getD_eq_getElem?_getD, List.getElem?_eq_getElem hk]
  rfl

lemma take_segment_none {α : Type} (l : List (Option α)) (i j : Nat)
    (hi : i < l.length) (hj : j < i) (hgap : l.getD i none = none)
    (hmid : ∀ k, j < k → k < i → l.getD k none = none) :
    ∀ v ∈ (l.take (i + 1)).drop (j + 1), v = none := by
  intro v hv
  obtain ⟨p, hp, hpv⟩ := List.mem_iff_getElem.mp hv
  have hlen : ((l.take (i + 1)).drop (j + 1)).length = i - j := by
    simp only [List.length_drop, List.length_take]
    omega
  have hq : j + 1 + p < l.length := by omega
  have hq2 : j + 1 + p < (l.take (i + 1)).length := by
    simp only [List.length_take]
    omega
  have hseg : ((l.take (i + 1)).drop (j + 1))[p] = l[j + 1 + p] := by
    rw [List.getElem_drop]
    exact List.getElem_take _
  rw [hseg] at hpv
  have hgd : l.getD (j + 1 + p) none = l[j + 1 + p] := getD_eq_getElem l _ hq
  by_cases hqi : j + 1 + p = i
  · rw [← hpv, ← hgd, hqi, hgap]
  · have : l.getD (j + 1 + p) none = none := hmid _ (by omega) (by omega)
    rw [← hpv, ← hgd, this]

lemma ffillAux_length {α : Type} :
    ∀ (l : List (Option α)) (acc : Option α), (ffillAux acc l).length = l.length := by
  intro l
  induction l with
  | nil => intro acc; rfl
  | cons v rest ih =>
    intro acc
    match v with
    | none => simpa [ffillAux] using ih acc
    | some x => simpa [ffillAux] using ih (some x)

/-- The heart of C8: forward fill writes the nearest preceding non-missing
value into a gap. -/
lemma ffill_getD_of_prevSome {α : Type} (l : List (Option α)) (i j : Nat)
    (hi : i < l.length) (hgap : l.getD i none = none)
    (hj : prevSome l i = some j) :
    (ffillList l).getD i none = l.getD j none := by
  obtain ⟨hji, hjsome, hmid⟩ := prevSome_spec l i j hj
  have hjl : j < l.length := by omega
  rw [ffillList, ffillAux_getD l none i hi]
  have hsplit : l.take (i + 1)
      = l.take (j + 1) ++ (l.take (i + 1)).drop (j + 1) := by
    conv_lhs => rw [← List.take_append_drop (j + 1) (l.take (i + 1))]
    rw [List.take_take, min_eq_left (by omega)]
  rw [hsplit, lastSomeOr_append,
    lastSomeOr_all_none _ _ (take_segment_none l i j hi hji hgap hmid)]
  have htakej : l.take (j + 1) = l.take j ++ [l.getD j none] := by
    rw [List.take_succ, List.getElem?_eq_getElem hjl]
    rw [getD_eq_getElem l j hjl]
    rfl
  rw [htakej, lastSomeOr_append]
  obtain ⟨x, hx⟩ := Option.isSome_iff_exists.mp hjsome
  rw [hx]
  rfl

/-- The 50-hour scenario series: hours 0..49 with the observations at hours
10 and 20 removed; the value at hour `j` is `100 + j`. -/
def raw50 : List (Nat × Nat) :=
  ((List.range 50).filter (fun j => j ≠ 10 ∧ j ≠ 20)).map (fun j => (60 * j, 100 + j))

set_option maxRecDepth 40000

/-- C8: with the forward-fill policy, a grid hour carrying no exact-hour
observation whose nearest preceding observed grid hour is `j` receives
exactly the value observed at `j` (which is non-missing); and in the
scenario of 50 hourly points with the two interior points at hours 10 and 20
removed, the normalised grid has 50 rows and the two filled rows repeat
their immediate predecessor's value. -/
theorem forward_fill_gap {α : Type} (raw : List (Nat × α)) (i j : Nat)
    (hi : i < gridLen raw)
    (hgap : (gridVals raw).getD i none = none)
    (hj : prevSome (gridVals raw) i = some j) :
    ((ensure_hourly_index raw FillMethod.ffill).map Prod.snd).getD i none
      = (gridVals raw).getD j none
    ∧ ((gridVals raw).getD j none).isSome
    ∧ (ensure_hourly_index raw50 FillMethod.ffill).length = 50
    ∧ ((ensure_hourly_index raw50 FillMethod.ffill).map Prod.snd).getD 10 none
        = ((ensure_hourly_index raw50 FillMethod.ffill).map Prod.snd).getD 9 none
    ∧ ((ensure_hourly_index raw50 FillMethod.ffill).map Prod.snd).getD 20 none
        = ((ensure_hourly_index raw50 FillMethod.ffill).map Prod.snd).getD 19 none := by
  have hlvals : (gridVals raw).length = gridLen raw := by
    simp [gridVals, gridTimes]
  have hi2 : i < (gridVals raw).length := by rw [hlvals]; exact hi
  have hmap : (ensure_hourly_index raw FillMethod.ffill).map Prod.snd
      = ffillList (gridVals raw) := by
    rw [ensure_hourly_index]
    apply List.map_snd_zip
    simp [applyFill, ffillList, ffillAux_length, gridVals, gridTimes]
  refine ⟨?_, ?_, by decide, by decide, by decide⟩
  · rw [hmap]
    exact ffill_getD_of_prevSome (gridVals raw) i j hi2 hgap hj
  · exact (prevSome_spec (gridVals raw) i j hj).2.1

/-- C8 witness: the three-hour series `{(t=0, 5), (t=120, 7)}` has a gap at
hour 1 whose nearest preceding observed hour is hour 0; forward fill copies
hour 0's value. -/
theorem forward_fill_gap_witness :
    ((ensure_hourly_index [((0 : Nat), (5 : Nat)), (120, 7)] FillMethod.ffill).map
        Prod.snd).getD 1 none
      = (gridVals [((0 : Nat), (5 : Nat)), (120, 7)]).getD 0 none :=
  (forward_fill_gap [((0 : Nat), (5 : Nat)), (120, 7)] 1 0 (by decide) (by decide)
    (by decide)).1

/-! ### Lag-trimming lemmas for C3 and C10 -/

lemma trimLoopF_nil (n mt : Nat) : ∀ fuel, trimLoopF n mt fuel [] = [] := by
  intro fuel
  cases fuel <;> rfl

lemma le_foldlMaxNat : ∀ (l : List Nat) (a : Nat), a ≤ l.foldl max a := by
  intro l
  induction l with
  | nil => intro a; simp
  | cons x rest ih =>
    intro a
    calc a ≤ max a x := le_max_left _ _
      _ ≤ rest.foldl max (max a x) := ih _
      _ = (x :: rest).foldl max a := rfl

lemma mem_le_foldlMax : ∀ (l : List Nat) (a : Nat), ∀ k ∈ l, k ≤ l.foldl max a := by
  intro l
  induction l with
  | nil => intro a k hk; simp at hk
  | cons x rest ih =>
    intro a k hk
    rcases List.mem_cons.mp hk with rfl | hk
    · calc k ≤ max a k := le_max_right _ _
        _ ≤ rest.foldl max (max a k) := le_foldlMaxNat _ _
        _ = (k :: rest).foldl max a := rfl
    · exact ih (max a x) k hk

lemma le_maxList (l : List Nat) : ∀ k ∈ l, k ≤ maxList l :=
  mem_le_foldlMax l 0

lemma foldlMax_le : ∀ (l : List Nat) (a x : Nat), a ≤ x → (∀ k ∈ l, k ≤ x) →
    l.foldl max a ≤ x := by
  intro l
  induction l with
  | nil => intro a x ha _; simpa using ha
  | cons y rest ih =>
    intro a x ha hall
    have hy : y ≤ x := hall y (List.mem_cons_self _ _)
    exact ih (max a y) x (max_le ha hy) (fun k hk => hall k (List.mem_cons_of_mem _ hk))

lemma maxList_lt (l : List Nat) (n : Nat) (hne : l ≠ [])
    (hall : ∀ k ∈ l, k < n) : maxList l < n := by
  match l with
  | [] => exact absurd rfl hne
  | a :: rest =>
    have hn : 0 < n := lt_of_le_of_lt (Nat.zero_le a) (hall a (List.mem_cons_self _ _))
    have : maxList (a :: rest) ≤ n - 1 :=
      foldlMax_le (a :: rest) 0 (n - 1) (by omega)
        (fun k hk => by have := hall k hk; omega)
    omega

lemma maxList_concat (ys : List Nat) (x : Nat) (hle : ∀ k ∈ ys, k ≤ x) :
    maxList (ys ++ [x]) = x := by
  unfold maxList
  rw [List.foldl_append]
  have h1 : ys.foldl max 0 ≤ x := foldlMax_le ys 0 x (Nat.zero_le x) hle
  simp [max_eq_right h1]

lemma trimLoopF_subset (n mt : Nat) :
    ∀ (fuel : Nat) (l : List Nat), ∀ k ∈ trimLoopF n mt fuel l, k ∈ l := by
  intro fuel
  induction fuel with
  | zero => intro l k hk; rw [trimLoopF] at hk; exact hk
  | succ m ih =>
    intro l k hk
    match l with
    | [] => rw [trimLoopF_nil] at hk; exact hk
    | a :: rest =>
      rw [trimLoopF] at hk
      by_cases hc : (mt : Int) ≤ (n : Int) - (maxList (a :: rest) : Int)
      · rwa [if_pos hc] at hk
      · rw [if_neg hc] at hk
        exact (List.dropLast_sublist (a :: rest)).subset (ih _ k hk)

lemma trimLoop_subset (n mt : Nat) (l : List Nat) :
    ∀ k ∈ trimLoop n mt l, k ∈ l :=
  trimLoopF_subset n mt l.length l

lemma trimLoopF_fuel (n mt : Nat) :
    ∀ (f1 : Nat) (l : List Nat) (f2 : Nat), l.length ≤ f1 → l.length ≤ f2 →
      trimLoopF n mt f1 l = trimLoopF n mt f2 l := by
  intro f1
  induction f1 with
  | zero =>
    intro l f2 h1 _
    have : l = [] := List.length_eq_zero.mp (Nat.le_zero.mp h1)
    subst this
    simp [trimLoopF_nil]
  | succ m ih =>
    intro l f2 h1 h2
    match l with
    | [] => simp [trimLoopF_nil]
    | a :: rest =>
      match f2 with
      | 0 => simp at h2
      | g + 1 =>
        rw [trimLoopF, trimLoopF]
        by_cases hc : (mt : Int) ≤ (n : Int) - (maxList (a :: rest) : Int)
        · rw [if_pos hc, if_pos hc]
        · rw [if_neg hc, if_neg hc]
          have hlen : (a :: rest).dropLast.length = rest.length := by
            simp [List.length_dropLast]
          exact ih _ g (by simp at h1; omega) (by simp at h2; omega)

/-- The trimming loop ignores lags at or beyond `n_rows` when
`min_train_rows ≥ 1`: running it on the ascending-sorted requested set is
the same as running it on the set pre-filtered to `lag < n_rows`. -/
lemma trimLoopF_filter (n mt : Nat) (hmt : 1 ≤ mt) :
    ∀ (fuel : Nat) (l : List Nat), l.Sorted (· ≤ ·) → l.length ≤ fuel →
      trimLoopF n mt fuel l = trimLoopF n mt fuel (l.filter (fun k => k < n)) := by
  intro fuel
  induction fuel with
  | zero =>
    intro l _ h1
    have : l = [] := List.length_eq_zero.mp (Nat.le_zero.mp h1)
    subst this
    rfl
  | succ m ih =>
    intro l hsort hlen
    match l with
    | [] => rfl
    | a :: rest =>
      by_cases hmax : maxList (a :: rest) < n
      · have hall : ∀ k ∈ (a :: rest), (fun k => decide (k < n)) k = true := by
          intro k hk
          simpa using lt_of_le_of_lt (le_maxList _ k hk) hmax
        rw [List.filter_eq_self.mpr hall]
      · have hne : (a :: rest) ≠ [] := by simp
        have hyx := List.dropLast_append_getLast hne
        set x := (a :: rest).getLast hne with hxdef
        set ys := (a :: rest).dropLast with hysdef
        have hys_le : ∀ k ∈ ys, k ≤ x := by
          intro k hk
          have hsort2 : List.Pairwise (· ≤ ·) (ys ++ [x]) := by
            rw [hyx]; exact hsort
          exact (List.pairwise_append.mp hsort2).2.2 k hk x (List.mem_singleton_self x)
        have hxval : maxList (a :: rest) = x := by
          rw [← hyx]; exact maxList_concat ys x hys_le
        have hcond : ¬ ((mt : Int) ≤ (n : Int) - (maxList (a :: rest) : Int)) := by
          have hxn : (n : Int) ≤ (maxList (a :: rest) : Int) := by
            exact_mod_cast Nat.le_of_not_lt hmax
          omega
        have hfilter : (a :: rest).filter (fun k => k < n)
            = ys.filter (fun k => k < n) := by
          rw [← hyx, List.filter_append]
          have : ¬ x < n := by rw [hxval] at hmax; exact hmax
          simp [this]
        have hys_sorted : ys.Sorted (· ≤ ·) := by
          have : List.Pairwise (· ≤ ·) (ys ++ [x]) := by rw [hyx]; exact hsort
          exact (List.pairwise_append.mp this).1
        have hys_len : ys.length ≤ m := by
          rw [hysdef]
          simp only [List.length_dropLast, List.length_cons]
          simp only [List.length_cons] at hlen
          omega
        rw [trimLoopF, if_neg hcond, hfilter, ← hysdef]
        rw [ih ys hys_sorted hys_len]
        exact trimLoopF_fuel n mt m _ (m + 1)
          (le_trans (List.length_filter_le _ _) hys_len)
          (le_trans (le_trans (List.length_filter_le _ _) hys_len) (Nat.le_succ m))

lemma dedupSortAsc_sorted (l : List Nat) : (dedupSortAsc l).Sorted (· ≤ ·) :=
  List.sorted_insertionSort (· ≤ ·) l.dedup

lemma validLags_eq_spec (requested : List Nat) (nRows minTrain : Nat)
    (hmt : 1 ≤ minTrain) :
    validLags requested nRows minTrain = specTrimLags requested nRows minTrain := by
  have h := trimLoopF_filter nRows minTrain hmt (dedupSortAsc requested).length
    (dedupSortAsc requested) (dedupSortAsc_sorted requested) le_rfl
  have h2 := trimLoopF_fuel nRows minTrain
    ((dedupSortAsc requested).filter (fun k => k < nRows)).length
    ((dedupSortAsc requested).filter (fun k => k < nRows))
    (dedupSortAsc requested).length
    le_rfl (List.length_filter_le _ _)
  have hkey : trimLoop nRows minTrain
      ((dedupSortAsc requested).filter (fun k => k < nRows))
      = trimLoop nRows minTrain (dedupSortAsc requested) := by
    unfold trimLoop
    rw [h2, ← h]
  unfold validLags specTrimLags
  rw [hkey]

lemma validLags_lt (requested : List Nat) (nRows minTrain : Nat) :
    ∀ k ∈ validLags requested nRows minTrain, k < nRows := by
  intro k hk
  unfold validLags at hk
  by_cases hv : trimLoop nRows minTrain
      ((dedupSortAsc requested).filter (fun k => k < nRows)) = []
  · rw [if_pos hv] at hk
    simpa using (List.mem_filter.mp hk).2
  · rw [if_neg hv] at hk
    have := trimLoop_subset _ _ _ k hk
    simpa using (List.mem_filter.mp this).2

/-- C3: for `min_train_rows ≥ 1` the valid-lag computation of the pipeline
equals the spec's description of it (repeatedly drop the largest remaining
lag while `n_rows - max_lag < min_train_rows`, falling back to `{1, 24}`
filtered to `< n_rows`); whenever lags survive, the returned feature table
has exactly `n_rows - max(valid_lags)` rows; and in the scenario
`lags = [1,24,168]`, `n_rows = 50`, `min_train_rows = 48` the surviving lag
set is `[1]` and the table has 49 rows. -/
theorem lag_trimming_deterministic (requested : List Nat) (nRows minTrain : Nat)
    (hmt : 1 ≤ minTrain) :
    validLags requested nRows minTrain = specTrimLags requested nRows minTrain
    ∧ (∀ (α : Type) (raw : List (Nat × α)) (v : List Nat)
        (rows : List (Nat × Option α)),
        build_features_pipeline raw requested minTrain = Except.ok (v, rows) →
        v ≠ [] →
        rows.length = (ensure_hourly_index raw FillMethod.ffill).length - maxList v)
    ∧ validLags [1, 24, 168] 50 48 = [1]
    ∧ (build_features_pipeline raw50 [1, 24, 168] 48).toOption.map
        (fun p => (p.1, p.2.length)) = some ([1], 49) := by
  refine ⟨validLags_eq_spec requested nRows minTrain hmt, ?_, by decide, by decide⟩
  intro α raw v rows hok hne
  unfold build_features_pipeline at hok
  by_cases h0 : (ensure_hourly_index raw FillMethod.ffill).length = 0
  · rw [if_pos h0] at hok
    exact absurd hok (by simp)
  · rw [if_neg h0] at hok
    by_cases hv : validLags requested (ensure_hourly_index raw FillMethod.ffill).length
        minTrain = []
    · rw [if_pos hv] at hok
      injection hok with hpair
      have hfst := congrArg Prod.fst hpair
      simp only at hfst
      exact absurd hfst.symm hne
    · rw [if_neg hv] at hok
      have hlt : maxList (validLags requested
          (ensure_hourly_index raw FillMethod.ffill).length minTrain)
          < (ensure_hourly_index raw FillMethod.ffill).length :=
        maxList_lt _ _ hv (validLags_lt requested _ minTrain)
      rw [if_pos hlt] at hok
      injection hok with hpair
      have hv2 := congrArg Prod.fst hpair
      have hrows := congrArg Prod.snd hpair
      simp only at hv2 hrows
      rw [← hrows, List.length_drop, hv2]

/-- C3 witness: the scenario inputs satisfy `min_train_rows ≥ 1` and the
trimming leaves exactly the lag set `[1]`. -/
theorem lag_trimming_deterministic_witness :
    validLags [1, 24, 168] 50 48 = [1] :=
  (lag_trimming_deterministic [1, 24, 168] 50 48 (by decide)).2.2.1

/-- C10: on a one-row normalised grid, for any requested set of positive lags
and any `min_train_rows ≥ 1`, the pipeline does not fail: the requested lags
and the fallback `{1, 24}` both filter to the empty set, so no lag columns
are added, no leading rows are dropped, and the returned table is the
one-row grid itself. -/
theorem single_row_pipeline {α : Type} (raw : List (Nat × α)) (lags : List Nat)
    (minTrain : Nat)
    (hgrid : (ensure_hourly_index raw FillMethod.ffill).length = 1)
    (hpos : ∀ k ∈ lags, 1 ≤ k) (hmt : 1 ≤ minTrain) :
    build_features_pipeline raw lags minTrain
      = Except.ok ([], ensure_hourly_index raw FillMethod.ffill)
    ∧ validLags lags 1 minTrain = [] := by
  have hfilter : (dedupSortAsc lags).filter (fun lag => lag < 1) = [] := by
    rw [List.filter_eq_nil_iff]
    intro k hk
    have hk2 : k ∈ lags := by
      have := (List.mem_insertionSort (· ≤ ·)).mp hk
      exact List.mem_dedup.mp this
    have := hpos k hk2
    simp
    omega
  have hvl : validLags lags 1 minTrain = [] := by
    unfold validLags
    rw [hfilter]
    have htl : trimLoop 1 minTrain [] = [] := trimLoopF_nil 1 minTrain 0
    rw [htl, if_pos rfl]
    decide
  refine ⟨?_, hvl⟩
  unfold build_features_pipeline
  rw [hgrid]
  rw [if_neg (by omega : ¬ (1 : Nat) = 0), if_pos hvl]

/-- C10 witness: the single observation `(t=0, value 7)` yields a one-row
grid and the pipeline returns it untouched with no lag columns. -/
theorem single_row_pipeline_witness :
    build_features_pipeline [((0 : Nat), (7 : Nat))] [1, 24, 168] 48
      = Except.ok ([], ensure_hourly_index [((0 : Nat), (7 : Nat))] FillMethod.ffill)
    ∧ validLags [1, 24, 168] 1 48 = [] :=
  single_row_pipeline [((0 : Nat), (7 : Nat))] [1, 24, 168] 48 (by decide)
    (by decide) (by decide)

/-! ### Train/validation split lemmas for C5 -/

lemma foldlMaxInt_mem {α : Type} :
    ∀ (rest : List (Int × α)) (a : Int),
      rest.foldl (fun b q => max b q.1) a = a
        ∨ ∃ q ∈ rest, rest.foldl (fun b q => max b q.1) a = q.1 := by
  intro rest
  induction rest with
  | nil => intro a; exact Or.inl rfl
  | cons p tail ih =>
    intro a
    have hstep : (p :: tail).foldl (fun b q => max b q.1) a
        = tail.foldl (fun b q => max b q.1) (max a p.1) := rfl
    rcases ih (max a p.1) with h | ⟨q, hq, hqe⟩
    · rcases max_choice a p.1 with hm | hm
      · exact Or.inl (by rw [hstep, h, hm])
      · exact Or.inr ⟨p, List.mem_cons_self _ _, by rw [hstep, h, hm]⟩
    · exact Or.inr ⟨q, List.mem_cons_of_mem _ hq, by rw [hstep, hqe]⟩

lemma maxTsInt_mem {α : Type} (rows : List (Int × α)) (hne : rows ≠ []) :
    ∃ p ∈ rows, p.1 = maxTsInt rows := by
  match rows with
  | [] => exact absurd rfl hne
  | p :: rest =>
    rcases foldlMaxInt_mem rest p.1 with h | ⟨q, hq, hqe⟩
    · exact ⟨p, List.mem_cons_self _ _, by rw [maxTsInt, h]⟩
    · exact ⟨q, List.mem_cons_of_mem _ hq, by rw [maxTsInt, hqe]⟩

/-- C5 (amended): the split puts rows with `ts ≤ max(ts) - val_hours` into
train and the rest into validation; whenever both parts are nonempty every
train timestamp precedes every validation timestamp; for a nonempty table
and `val_hours ≥ 1` the validation part is never empty; and when `val_hours`
exceeds the series span it is the training part that comes back empty —
returned normally, not raised as an error. -/
theorem time_split_no_leakage {α : Type} (rows : List (Int × α)) (valHours : Nat) :
    (∀ p, p ∈ (train_val_split_time rows valHours).1 ↔
        p ∈ rows ∧ p.1 ≤ maxTsInt rows - 60 * (valHours : Int))
    ∧ (∀ p, p ∈ (train_val_split_time rows valHours).2 ↔
        p ∈ rows ∧ maxTsInt rows - 60 * (valHours : Int) < p.1)
    ∧ (∀ a ∈ (train_val_split_time rows valHours).1,
        ∀ b ∈ (train_val_split_time rows valHours).2, a.1 < b.1)
    ∧ (rows ≠ [] → 1 ≤ valHours → (train_val_split_time rows valHours).2 ≠ [])
    ∧ ((∀ p ∈ rows, maxTsInt rows - 60 * (valHours : Int) < p.1) →
        (train_val_split_time rows valHours).1 = []) := by
  have htrain : ∀ p, p ∈ (train_val_split_time rows valHours).1 ↔
      p ∈ rows ∧ p.1 ≤ maxTsInt rows - 60 * (valHours : Int) := by
    intro p
    simp [train_val_split_time, sortByTs, List.mem_filter,
      List.mem_insertionSort]
  have hval : ∀ p, p ∈ (train_val_split_time rows valHours).2 ↔
      p ∈ rows ∧ maxTsInt rows - 60 * (valHours : Int) < p.1 := by
    intro p
    simp [train_val_split_time, sortByTs, List.mem_filter,
      List.mem_insertionSort, not_le]
  refine ⟨htrain, hval, ?_, ?_, ?_⟩
  · intro a ha b hb
    exact lt_of_le_of_lt ((htrain a).mp ha).2 ((hval b).mp hb).2
  · intro hne hvh
    obtain ⟨p, hp, hpmax⟩ := maxTsInt_mem rows hne
    have hv1 : (1 : Int) ≤ (valHours : Int) := by exact_mod_cast hvh
    have : p ∈ (train_val_split_time rows valHours).2 :=
      (hval p).mpr ⟨hp, by rw [hpmax]; omega⟩
    exact List.ne_nil_of_mem this
  · intro hall
    rw [List.eq_nil_iff_forall_not_mem]
    intro p hp
    obtain ⟨hmem, hle⟩ := (htrain p).mp hp
    exact absurd hle (not_le.mpr (hall p hmem))

/-- C5 witness: for the two-row hourly table spanning one hour and
`val_hours = 1`, the validation part is nonempty. -/
theorem time_split_no_leakage_witness :
    (train_val_split_time [((0 : Int), (5 : Nat)), (60, 6)] 1).2 ≠ [] :=
  (time_split_no_leakage [((0 : Int), (5 : Nat)), (60, 6)] 1).2.2.2.1
    (by decide) (by decide)

/-- C5 counterexample: the table `{(t=0, 5), (t=60, 6)}` spans one hour
(`max ts = 60` minutes); with `val_hours = 2` exceeding that span the
validation part is the whole table — never empty — and it is the training
part that comes back empty, contrary to the claim that the validation part
may be empty in this situation. -/
theorem time_split_val_never_empty_cex :
    maxTsInt [((0 : Int), (5 : Nat)), (60, 6)] = 60
    ∧ (train_val_split_time [((0 : Int), (5 : Nat)), (60, 6)] 2).1 = []
    ∧ (train_val_split_time [((0 : Int), (5 : Nat)), (60, 6)] 2).2
        = [((0 : Int), (5 : Nat)), (60, 6)]
    ∧ (train_val_split_time [((0 : Int), (5 : Nat)), (60, 6)] 2).2 ≠ [] := by
  refine ⟨by decide, by decide, by decide, by decide⟩

/-! ### Forecast state machine theorems -/

/-- A concrete anchor state with lag values `lag_1 = 5`, `lag_24 = 3`,
`lag_168 = 2` (all present, none missing). -/
noncomputable def stB : FState :=
  { lags := fun k => if k = 1 then some 5 else if k = 24 then some 3
      else if k = 168 then some 2 else none
    hour := 0, hourSin := 0, hourCos := 1
    dayofweek := 2, month := 6, dayofyear := 150, isWeekend := 0 }

/-- C1 counterexample: with the configured lag set `{1, 24, 168}` and
`ŷ = 7`, one transition from `stB` leaves `lag_24` and `lag_168` missing
(`NaN`), instead of the previous `lag_1 = 5` and previous `lag_24 = 3`
the claim promises. -/
theorem lag_cascade_not_configured_shift_cex :
    stB.lags 1 = some 5
    ∧ stB.lags 24 = some 3
    ∧ (transition [1, 24, 168] stB 7).lags 24 = none
    ∧ (transition [1, 24, 168] stB 7).lags 24 ≠ stB.lags 1
    ∧ (transition [1, 24, 168] stB 7).lags 168 = none
    ∧ (transition [1, 24, 168] stB 7).lags 168 ≠ stB.lags 24 := by
  refine ⟨by simp [stB], by simp [stB], ?_, ?_, ?_, ?_⟩ <;>
    simp [transition, newLagVal, stB]

/-- C1 (amended): in each transition the update writes, for every configured
offset `k ≠ 1`, the previous value of `lag_{k-1}` when `k-1` is itself a
configured offset and `NaN` otherwise (a numeric `k-1` shift, not a shift to
the next smaller configured offset); the offset-1 lag column (when
configured) is set to `ŷ`; so for the lag set `{1, 24, 168}` one transition
yields `lag_1 = ŷ` and `lag_24 = lag_168 = NaN`. -/
theorem lag_cascade_numeric_shift (lagSet : List Int) (st : FState) (y : ℝ)
    (k : Int) (hk : k ∈ lagSet) :
    (k ≠ 1 → (transition lagSet st y).lags k
        = if k - 1 ∈ lagSet then st.lags (k - 1) else none)
    ∧ (k = 1 → (transition lagSet st y).lags k = some y)
    ∧ (transition [1, 24, 168] stB 7).lags 1 = some 7
    ∧ (transition [1, 24, 168] stB 7).lags 24 = none
    ∧ (transition [1, 24, 168] stB 7).lags 168 = none := by
  refine ⟨?_, ?_, ?_, ?_, ?_⟩
  · intro h1
    simp [transition, newLagVal, hk, h1]
  · intro h1
    subst h1
    simp [transition, newLagVal, hk]
  · simp [transition, newLagVal, stB]
  · simp [transition, newLagVal, stB]
  · simp [transition, newLagVal, stB]

/-- C1 witness: the amended rule applied at offset 24 of the configured set
`{1, 24, 168}`: since 23 is not configured, the new `lag_24` is `NaN`. -/
theorem lag_cascade_numeric_shift_witness :
    (transition [1, 24, 168] stB 7).lags 24
      = (if (24 : Int) - 1 ∈ [(1 : Int), 24, 168] then stB.lags (24 - 1)
          else none) :=
  (lag_cascade_numeric_shift [1, 24, 168] stB 7 24 (by decide)).1 (by decide)

lemma foldl_transition_frame (lagSet : List Int) :
    ∀ (ys : List ℝ) (st : FState),
      (ys.foldl (transition lagSet) st).dayofweek = st.dayofweek
      ∧ (ys.foldl (transition lagSet) st).month = st.month
      ∧ (ys.foldl (transition lagSet) st).dayofyear = st.dayofyear
      ∧ (ys.foldl (transition lagSet) st).isWeekend = st.isWeekend := by
  intro ys
  induction ys with
  | nil => intro st; exact ⟨rfl, rfl, rfl, rfl⟩
  | cons y rest ih =>
    intro st
    have hstep : (y :: rest).foldl (transition lagSet) st
        = rest.foldl (transition lagSet) (transition lagSet st y) := rfl
    rw [hstep]
    obtain ⟨h1, h2, h3, h4⟩ := ih (transition lagSet st y)
    exact ⟨h1, h2, h3, h4⟩

/-- C6: each transition advances `hour` to `(hour + 1) mod 24` and recomputes
`hour_sin`, `hour_cos` from the new hour, while `dayofweek`, `month`,
`dayofyear` and `is_weekend` keep their anchor values through any number of
transitions. -/
theorem calendar_update_frame (lagSet : List Int) (st : FState) (y : ℝ)
    (ys : List ℝ) :
    (transition lagSet st y).hour = (st.hour + 1) % 24
    ∧ (transition lagSet st y).hourSin
        = Real.sin (2 * Real.pi * (((st.hour + 1) % 24 : Int) : ℝ) / 24)
    ∧ (transition lagSet st y).hourCos
        = Real.cos (2 * Real.pi * (((st.hour + 1) % 24 : Int) : ℝ) / 24)
    ∧ (ys.foldl (transition lagSet) st).dayofweek = st.dayofweek
    ∧ (ys.foldl (transition lagSet) st).month = st.month
    ∧ (ys.foldl (transition lagSet) st).dayofyear = st.dayofyear
    ∧ (ys.foldl (transition lagSet) st).isWeekend = st.isWeekend := by
  obtain ⟨h1, h2, h3, h4⟩ := foldl_transition_frame lagSet ys st
  exact ⟨rfl, rfl, rfl, h1, h2, h3, h4⟩

lemma runForecast_const (predict : FState → Except EstimatorError ℝ)
    (lagSet : List Int) (c : ℝ) (hc : ∀ s, predict s = Except.ok c) :
    ∀ (n step : Nat) (st : FState),
      runForecast predict lagSet n step st
        = Except.ok ((List.range n).map (fun i => (step + i, c))) := by
  intro n
  induction n with
  | zero => intro step st; rfl
  | succ m ih =>
    intro step st
    have h1 := ih (step + 1) (transition lagSet st c)
    have hlist : (List.range (m + 1)).map (fun i => (step + i, c))
        = (step, c) :: (List.range m).map (fun i => (step + 1 + i, c)) := by
      rw [List.range_succ_eq_map, List.map_cons, List.map_map]
      refine congrArg₂ _ (by simp) ?_
      apply List.map_congr_left
      intro i _
      simp [Function.comp]
      omega
    simp only [runForecast, hc st, h1, hlist]

lemma labelDatetimes_shift (anchor n : Nat) :
    labelDatetimes anchor n = (List.range n).map (fun i => (anchor + 60) + 60 * i) := by
  unfold labelDatetimes
  apply List.map_congr_left
  intro i _
  ring

/-- C4: with horizon `N` the machine performs exactly `N` transitions and
returns the `N` pairs `(1, ŷ₁) .. (N, ŷ_N)` in step order; a constant-`c`
estimator yields prediction `c` at every step; and the output labelling of
`run_model.py` produces `N` datetimes strictly increasing by one hour
starting at the anchor timestamp plus one hour. -/
theorem recursive_forecast_output (predict : FState → Except EstimatorError ℝ)
    (lagSet : List Int) (N : Nat) (st : FState) (anchor : Nat) (c : ℝ)
    (hc : ∀ s, predict s = Except.ok c) :
    make_recursive_forecast predict lagSet N st
      = Except.ok ((List.range N).map (fun i => (i + 1, c)))
    ∧ ((List.range N).map (fun i => (i + 1, c))).length = N
    ∧ List.Chain' (fun x y => y = x + 60) (labelDatetimes anchor N)
    ∧ (labelDatetimes anchor N).head? = (if N = 0 then none else some (anchor + 60))
    ∧ (labelDatetimes anchor N).length = N := by
  refine ⟨?_, by simp, ?_, ?_, by simp [labelDatetimes]⟩
  · rw [make_recursive_forecast, runForecast_const predict lagSet c hc N 1 st]
    refine congrArg _ (List.map_congr_left ?_)
    intro i _
    simp [Nat.add_comm]
  · rw [labelDatetimes_shift]
    exact chain_arith (anchor + 60) 60 N
  · match N with
    | 0 => rfl
    | m + 1 =>
      rw [labelDatetimes, List.range_succ_eq_map, List.map_cons]
      simp

/-- C4 witness: a constant-7 estimator over horizon 6 from the anchor `stB`
returns the six pairs `(1,7) .. (6,7)`, and the labels starting at anchor 0
begin at minute 60 and rise by 60. -/
theorem recursive_forecast_output_witness :
    make_recursive_forecast (fun _ => Except.ok (7 : ℝ)) [1, 24, 168] 6 stB
      = Except.ok ((List.range 6).map (fun i => (i + 1, (7 : ℝ))))
    ∧ ((List.range 6).map (fun i => (i + 1, (7 : ℝ)))).length = 6
    ∧ List.Chain' (fun x y => y = x + 60) (labelDatetimes 0 6)
    ∧ (labelDatetimes 0 6).head? = (if 6 = 0 then none else some (0 + 60))
    ∧ (labelDatetimes 0 6).length = 6 :=
  recursive_forecast_output (fun _ => Except.ok (7 : ℝ)) [1, 24, 168] 6 stB 0 7
    (fun _ => rfl)

/-- C7 counterexample: an estimator whose predict call raises `notFitted`
makes the whole forecast run return exactly that original exception — not a
`ForecastError` wrapper, which the source never constructs — and no partial
list of predictions. -/
theorem forecast_error_unwrapped_cex :
    make_recursive_forecast (fun _ => Except.error EstimatorError.notFitted)
        [1, 24, 168] 6 stB
      = Except.error EstimatorError.notFitted
    ∧ EstimatorError.notFitted.isForecastWrap = false := by
  constructor
  · simp only [make_recursive_forecast, runForecast]
  · rfl

/-- C7 (amended): every forecast run either succeeds with exactly `horizon`
predictions, or fails with the original exception of some predict call
propagated unchanged; in the failure case no partial sequence is returned. -/
theorem forecast_error_propagation (predict : FState → Except EstimatorError ℝ)
    (lagSet : List Int) (N : Nat) (st : FState) :
    (∃ l, make_recursive_forecast predict lagSet N st = Except.ok l
        ∧ l.length = N)
    ∨ (∃ e stMid, predict stMid = Except.error e
        ∧ make_recursive_forecast predict lagSet N st = Except.error e) := by
  rw [make_recursive_forecast]
  have H : ∀ (n step : Nat) (s : FState),
      (∃ l, runForecast predict lagSet n step s = Except.ok l ∧ l.length = n)
      ∨ (∃ e sMid, predict sMid = Except.error e
          ∧ runForecast predict lagSet n step s = Except.error e) := by
    intro n
    induction n with
    | zero => intro step s; exact Or.inl ⟨[], rfl, rfl⟩
    | succ m ih =>
      intro step s
      cases hp : predict s with
      | error e =>
        refine Or.inr ⟨e, s, hp, ?_⟩
        simp only [runForecast, hp]
      | ok y =>
        rcases ih (step + 1) (transition lagSet s y) with ⟨l, hl, hlen⟩ |
            ⟨e, sMid, he, hrun⟩
        · refine Or.inl ⟨(step, y) :: l, ?_, by simp [hlen]⟩
          simp only [runForecast, hp, hl]
        · refine Or.inr ⟨e, sMid, he, ?_⟩
          simp only [runForecast, hp, hrun]
  exact H N 1 st

/-! ### Rolling feature theorems -/

lemma getDAt {β : Type} (l : List β) (k : Nat) (d : β) (hk : k < l.length) :
    l.getD k d = l[k] := by
  rw [List.getD_eq_getElem?_getD, List.getElem?_eq_getElem hk]
  rfl

/-- C9: rolling windows are trailing windows of length `min(w, i+1)`; with
`min_periods = 1` a partial window at the start covers exactly the available
rows (so the rolling mean there is the mean of the first `i+1` values); and
the rolling standard deviation of a single-element window is exactly `0`
after the `fillna(0)` of the `NaN` that `ddof=1` produces, never missing. -/
theorem rolling_min_periods (w : Nat) (xs : List ℝ) (i : Nat) (hw : 1 ≤ w)
    (hi : i < xs.length) :
    (windowAt w xs i).length = min w (i + 1)
    ∧ (i + 1 ≤ w → windowAt w xs i = xs.take (i + 1))
    ∧ (i + 1 ≤ w → (rollMean w xs).getD i 0 = listMean (xs.take (i + 1)))
    ∧ ((windowAt w xs i).length = 1 → (rollStdFilled w xs).getD i 0 = 0) := by
  have hmean : (rollMean w xs).getD i 0 = listMean (windowAt w xs i) := by
    have hlen : i < (List.range xs.length).length := by simpa using hi
    rw [rollMean, getDAt _ _ _ (by simpa using hi)]
    simp
  refine ⟨?_, ?_, ?_, ?_⟩
  · simp only [windowAt, List.length_drop, List.length_take]
    omega
  · intro hle
    have : i + 1 - w = 0 := by omega
    simp [windowAt, this]
  · intro hle
    rw [hmean]
    have : i + 1 - w = 0 := by omega
    simp [windowAt, this]
  · intro h1
    have hlen : i < (List.range xs.length).length := by simpa using hi
    rw [rollStdFilled, getDAt _ _ _ (by simpa using hi)]
    simp only [List.getElem_map, List.getElem_range]
    rw [sampleStd, if_pos (by omega)]
    rfl

/-- C9 witness: in the one-point series `[5]` with window 3, row 0 has a
single-element window whose filled rolling standard deviation is `0`. -/
theorem rolling_min_periods_witness :
    (windowAt 3 [(5 : ℝ)] 0).length = min 3 (0 + 1)
    ∧ (0 + 1 ≤ 3 → windowAt 3 [(5 : ℝ)] 0 = [(5 : ℝ)].take (0 + 1))
    ∧ (0 + 1 ≤ 3 → (rollMean 3 [(5 : ℝ)]).getD 0 0 = listMean ([(5 : ℝ)].take (0 + 1)))
    ∧ ((windowAt 3 [(5 : ℝ)] 0).length = 1 → (rollStdFilled 3 [(5 : ℝ)]).getD 0 0 = 0) :=
  rolling_min_periods 3 [(5 : ℝ)] 0 (by norm_num) (by simp)

end DemandPipeline
